import Mathlib

/-!
Verification of the tripod-library optimizer (src/la-tripods.cc).

The development shallowly embeds the program: the catalog index builder
(`buildTripods`, lines 72-79), the score comparison (`Score.BetterThan`,
lines 50-62) and the backtracking search loop (`step`/`run`, lines 84-132)
of the function `Optimize`.  Machine integers are modelled as `Nat` with
explicit wrap-around where the C++ types matter (uint32 cost accumulation,
uint64 bitmasks, the 32-bit int shift on line 93).  The mutable `used`
flags, the capacity table `book`, the frame vector `assignments`, the
`best_score` record and the stream of printed improving solutions are the
fields of `OptState`; one iteration of the `while` loop is `step`, and
`run` iterates it with explicit fuel (the loop guard `!assignments.empty()`
is the fuel-independent halting condition).

The frame vector is kept reversed: the head of `OptState.assignments` is
`assignments.back()` of the source, so `tripod = assignments.size()` is
`rest.length + 1` for a state `a :: rest`, and `prev = assignments[tripod-2]`
is `rest.headD {}`.
-/

/-- Number of rows per page (`kRows = 6` in the source). -/
def kRows : Nat := 6

/-- An `Item` of the source (line 38): category row, gold cost, granted
tripods.  The source fixes `tripods` as an array of 3 `uint8_t` padded with
zeros; zero entries are skipped everywhere they are read, so a plain list
(zeros allowed) is an equivalent embedding.  The mutable `used` flag (line
47, default-initialised to `false`) is kept in `OptState.used`, not here,
since the catalog data itself is immutable during a run. -/
structure Item where
  row : Nat
  cost : Nat
  tripods : List Nat
deriving DecidableEq, Repr

instance : Inhabited Item := ⟨⟨0, 0, []⟩⟩

/-- Bitwise and of the low 64 bits, by fuelled binary recursion (the
kernel evaluates it without well-founded recursion).  On arguments below
`2 ^ 64` this is exactly the C++ `uint64_t` operator `&`. -/
def u64andAux : Nat → Nat → Nat → Nat
  | 0, _, _ => 0
  | f + 1, a, b => min (a % 2) (b % 2) + 2 * u64andAux f (a / 2) (b / 2)

/-- `uint64_t` bitwise and. -/
def u64and (a b : Nat) : Nat := u64andAux 64 a b

/-- Bitwise or of the low 64 bits, fuelled like `u64andAux`. -/
def u64orAux : Nat → Nat → Nat → Nat
  | 0, _, _ => 0
  | f + 1, a, b => max (a % 2) (b % 2) + 2 * u64orAux f (a / 2) (b / 2)

/-- `uint64_t` bitwise or. -/
def u64or (a b : Nat) : Nat := u64orAux 64 a b

/-- `std::popcount` on a `uint64_t` (line 58): counts the 64 low bits. -/
def popcountAux : Nat → Nat → Nat
  | 0, _ => 0
  | f + 1, n => n % 2 + popcountAux f (n / 2)

/-- Population count of a `uint64_t` value. -/
def popcount (n : Nat) : Nat := popcountAux 64 n

/-- The value of the C++ expression `-x.cost` where `x.cost : uint32_t`
(line 53): unary minus on an unsigned 32-bit integer wraps modulo `2^32`. -/
def negU32 (c : Nat) : Nat := (4294967296 - c % 4294967296) % 4294967296

/-- `uint64_t{1} << sh` (lines 70 and 112).  Defined for `sh < 64`; for
`sh ≥ 64` the C++ shift is undefined behaviour, modelled here as the
x86-64 behaviour (shift count taken modulo 64). -/
def u64shl1 (sh : Nat) : Nat := 2 ^ (sh % 64)

/-- The value of `(uint64_t)(1 << sh)` where the shifted `1` is a 32-bit
`int` (line 93 of the source, `1 << (tripod - 1)`).  Under C++20 two's
complement, for `sh ≤ 30` the value is `2 ^ sh`; for `sh = 31` the `int`
result is `-2^31` and the conversion to `uint64_t` sign-extends, giving
bits 31..63; for `sh ≥ 32` the shift count reaches the width of `int`
(undefined behaviour), modelled as the x86-64 behaviour (count modulo 32).
Note the contrast with line 112, which correctly shifts `uint64_t{1}`. -/
def intShl1U64 (sh : Nat) : Nat :=
  if sh % 32 = 31 then 18446744073709551616 - 2147483648 else 2 ^ (sh % 32)

/-- `prio_mask = (uint64_t{1} << prio_tripods) - 1` (line 70). -/
def prioMaskOf (p : Nat) : Nat := u64shl1 p - 1

/-- The incremental `Score` of the search (line 50): the `uint64_t` bitmask
of obtained tripods (bit `t - 1` set iff tripod `t` is obtained) and the
`uint32_t` accumulated cost. -/
structure Score where
  tripods : Nat := 0
  cost : Nat := 0
deriving DecidableEq, Repr

/-- `Score::tripod_count` (line 58): `popcount(tripods & mask)`. -/
def Score.tripod_count (x : Score) (mask : Nat) : Nat := popcount (u64and x.tripods mask)

/-- The all-ones `uint64_t`, the default argument `mask = -1` of
`Score::tripod_count`. -/
def u64AllOnes : Nat := 18446744073709551615

/-- `Score::BetterThan` (lines 51-56): compare the tuples
`(tripod_count(prio_mask), tripod_count(), -cost)` with the C++ tuple
`operator>` (lexicographic).  The third component is the **unsigned**
negation `negU32` of the cost, exactly as in the source. -/
def Score.BetterThan (x other : Score) (prio_mask : Nat) : Bool :=
  decide (other.tripod_count prio_mask < x.tripod_count prio_mask ∨
    (x.tripod_count prio_mask = other.tripod_count prio_mask ∧
      (other.tripod_count u64AllOnes < x.tripod_count u64AllOnes ∨
        (x.tripod_count u64AllOnes = other.tripod_count u64AllOnes ∧
          negU32 other.cost < negU32 x.cost))))

/-- A search frame (`struct Assignment`, line 64): the candidate cursor
(`size_t item = -1`, the sentinel modelled as `none`) and the cumulative
score snapshot of this frame. -/
structure Assignment where
  item : Option Nat := none
  score : Score := {}
deriving DecidableEq, Repr

/-- Append item index `i` to the candidate list of tripod `t` (one inner
step of the index-building loop, lines 74-78): skip `t = 0`, grow the list
of lists to length `t` if needed, push onto list `t - 1`.  No validation of
any kind is performed, exactly as in the source. -/
def addTrait (acc : List (List Nat)) (i : Nat) (t : Nat) : List (List Nat) :=
  if t = 0 then acc
  else
    let acc2 := acc ++ List.replicate (t - acc.length) []
    acc2.set (t - 1) (acc2.getD (t - 1) [] ++ [i])

/-- The index-building loop of `Optimize` (lines 72-79), items processed in
order, `i` the index of the next item. -/
def buildAux : Nat → List Item → List (List Nat) → List (List Nat)
  | _, [], acc => acc
  | i, it :: rest, acc => buildAux (i + 1) rest (it.tripods.foldl (fun a t => addTrait a i t) acc)

/-- The Catalog Index: `tripods[t-1]` lists (in catalog order) the indices
of the items granting tripod `t`.  The source stores `Item*` pointers into
the stable `items` vector; indices are the equivalent pure representation. -/
def buildTripods (its : List Item) : List (List Nat) := buildAux 0 its []

/-- The redundancy-prune test of line 93:
`prev.score.tripods & (1 << (tripod - 1))` is nonzero.  The shifted `1` is
a 32-bit `int`, embedded by `intShl1U64`. -/
def redPop (prevTripods : Nat) (tripod : Nat) : Bool :=
  u64and prevTripods (intShl1U64 (tripod - 1)) != 0

/-- The whole mutable state of one `Optimize` run: the per-item `used`
flags, the capacity table (`Book book`, passed by value), the frame vector
(reversed: head = `assignments.back()`), the `best_score` record and the
stream of emitted improving solutions (score plus the printed list of
selected item indices, lines 119-126). -/
structure OptState where
  used : List Bool
  book : List Nat
  assignments : List Assignment
  best : Score
  output : List (Score × List Nat)
deriving DecidableEq, Repr

/-- The static data of a run: the catalog, `prio_tripods`, the catalog
index, and whether the redundancy prune of line 93 is active (`true` in
the source; `false` embodies §8's "disabling prune 2.a" variant for the
redundancy-prune-soundness property). -/
structure Env where
  its : List Item
  prioT : Nat
  trip : List (List Nat)
  useRed : Bool
deriving Repr

/-- The run's `prio_mask` (line 70). -/
def Env.pm (e : Env) : Nat := prioMaskOf e.prioT

/-- The candidate scan of lines 102-105: starting at index `j` of the
candidate list `v`, skip items that are already used or whose row has no
remaining capacity; return the first eligible cursor position, or `none`
when the list is exhausted (the `goto pop`).  Fuelled so that the kernel
evaluates it; `scanFrom` supplies the exact fuel. -/
def scanAux (its : List Item) (used : List Bool) (book : List Nat) (v : List Nat) :
    Nat → Nat → Option Nat
  | _, 0 => none
  | j, f + 1 =>
    if j < v.length then
      if used.getD (v.getD j 0) false = true ∨ book.getD ((its.getD (v.getD j 0) default).row) 0 = 0
      then scanAux its used book v (j + 1) f
      else some j
    else none

/-- The candidate scan from cursor position `j` (lines 102-105). -/
def scanFrom (its : List Item) (used : List Bool) (book : List Nat) (v : List Nat) (j : Nat) :
    Option Nat := scanAux its used book v j (v.length - j)

/-- The printed selection (lines 122-125): the indices `i` with
`items[i].used`, in increasing order. -/
def selectedOf (its : List Item) (used : List Bool) : List Nat :=
  (List.range its.length).filter (fun i => used.getD i false)

/-- `u64orTripods m ts` is the loop of lines 111-113: or into `m` the bit
of every nonzero tripod of `ts` (`uint64_t{1} << (t - 1)`). -/
def u64orTripods (m : Nat) (ts : List Nat) : Nat :=
  ts.foldl (fun acc t => if t = 0 then acc else u64or acc (u64shl1 (t - 1))) m

/-- Lines 102-128 of the loop body: scan for the next eligible candidate
from cursor `j`; on exhaustion pop the current frame (keeping the updated
`used`/`book` of a preceding deselection); otherwise select the item
(lines 107-113), then either grow the frame vector to full depth seeded
with the new score (line 116) or, at full depth, test against
`best_score` and emit (lines 117-127). -/
def afterScan (e : Env) (best : Score) (out : List (Score × List Nat)) (used : List Bool)
    (book : List Nat) (rest : List Assignment) (j : Nat) : OptState :=
  let v := e.trip.getD rest.length []
  let prev := rest.headD {}
  match scanFrom e.its used book v j with
  | none => ⟨used, book, rest, best, out⟩
  | some k =>
    let idx := v.getD k 0
    let it := e.its.getD idx default
    let used2 := used.set idx true
    let book2 := book.set it.row (book.getD it.row 0 - 1)
    let sc : Score := ⟨u64orTripods prev.score.tripods it.tripods, (prev.score.cost + it.cost) % 4294967296⟩
    let newA : Assignment := ⟨some k, sc⟩
    if rest.length + 1 ≠ e.trip.length then
      ⟨used2, book2, List.replicate (e.trip.length - (rest.length + 1)) ⟨none, sc⟩ ++ newA :: rest, best, out⟩
    else if sc.BetterThan best e.pm then
      ⟨used2, book2, newA :: rest, sc, out ++ [(sc, selectedOf e.its used2)]⟩
    else
      ⟨used2, book2, newA :: rest, best, out⟩

/-- One iteration of the `while` loop of `Optimize` (lines 84-132).  For a
nonempty frame vector `a :: rest` (head = deepest frame, `tripod =
rest.length + 1`): if the frame has a tried candidate, deselect it and
restore its row's capacity (lines 90-92) and rescan from the next cursor;
otherwise apply the redundancy prune (line 93, when enabled) and the
priority-cutoff prune (line 95), popping immediately if either fires;
otherwise scan from the start of the candidate list. -/
def step (e : Env) (s : OptState) : OptState :=
  match s.assignments with
  | [] => s
  | a :: rest =>
    let tripod := rest.length + 1
    let v := e.trip.getD rest.length []
    let prev := rest.headD {}
    match a.item with
    | some i =>
      let idx := v.getD i 0
      let it := e.its.getD idx default
      afterScan e s.best s.output (s.used.set idx false)
        (s.book.set it.row (s.book.getD it.row 0 + 1)) rest (i + 1)
    | none =>
      if e.useRed = true ∧ redPop prev.score.tripods tripod = true then
        ⟨s.used, s.book, rest, s.best, s.output⟩
      else if u64and a.score.tripods e.pm ≠ e.pm ∧ e.prioT < tripod then
        ⟨s.used, s.book, rest, s.best, s.output⟩
      else
        afterScan e s.best s.output s.used s.book rest 0

/-- The `while (!assignments.empty())` loop (line 84), iterated with
explicit fuel.  Once the frame vector is empty the state is final. -/
def run (e : Env) : Nat → OptState → OptState
  | 0, s => s
  | n + 1, s => if s.assignments = [] then s else run e n (step e s)

/-- The state at line 83: all `used` flags false (the field initialiser of
line 47), the capacity table as supplied, one untried frame per tripod
(`vector<Assignment> assignments(tripods.size())`, line 82), zero
`best_score`, nothing emitted. -/
def initState (e : Env) (book0 : List Nat) : OptState :=
  ⟨List.replicate e.its.length false, book0,
    List.replicate e.trip.length ⟨none, {}⟩, {}, []⟩

/-- The environment of a run of `Optimize(items, prio_tripods, book)`. -/
def mkEnv (its : List Item) (prioT : Nat) (useRed : Bool) : Env :=
  ⟨its, prioT, buildTripods its, useRed⟩

/-- `Optimize(items, prio_tripods, book)` run for `fuel` loop iterations
(the loop stops by itself once the frame vector is empty). -/
def OptimizeRun (its : List Item) (prioT : Nat) (book0 : List Nat) (fuel : Nat) : OptState :=
  run (mkEnv its prioT true) fuel (initState (mkEnv its prioT true) book0)

/-- The §8 variant of the engine with the redundancy prune of line 93
disabled ("disabling prune 2.a"); everything else is the source loop. -/
def OptimizeRunNoRed (its : List Item) (prioT : Nat) (book0 : List Nat) (fuel : Nat) : OptState :=
  run (mkEnv its prioT false) fuel (initState (mkEnv its prioT false) book0)

/-- Modelled from the spec (§3): the strict ordering on scores the spec
promises — more priority tripods, then more tripods, then **lower** cost,
with the genuine arithmetic comparison of costs (no unsigned wrap). -/
def specBetter (x y : Score) (pm : Nat) : Prop :=
  popcount (u64and y.tripods pm) < popcount (u64and x.tripods pm) ∨
    (popcount (u64and x.tripods pm) = popcount (u64and y.tripods pm) ∧
      (popcount y.tripods < popcount x.tripods ∨
        (popcount x.tripods = popcount y.tripods ∧ x.cost < y.cost)))

instance (x y : Score) (pm : Nat) : Decidable (specBetter x y pm) := by
  unfold specBetter; infer_instance

/-- How many items of `sel` lie in row `c`. -/
def rowCount (its : List Item) (sel : List Nat) (c : Nat) : Nat :=
  (sel.filter (fun i => (its.getD i default).row == c)).length

/-- Modelled from the spec (§1, §3): a feasible selection — distinct valid
item indices whose per-row counts respect the initial capacities. -/
def specFeasible (its : List Item) (book0 : List Nat) (sel : List Nat) : Prop :=
  sel.Nodup ∧ (∀ i ∈ sel, i < its.length) ∧
    (∀ i ∈ sel, (its.getD i default).row < book0.length) ∧
    (∀ c < book0.length, rowCount its sel c ≤ book0.getD c 0)

instance (its : List Item) (book0 : List Nat) (sel : List Nat) :
    Decidable (specFeasible its book0 sel) := by
  unfold specFeasible; infer_instance

/-- Modelled from the spec (§3): the Score of a selection — the or of the
tripod bits of its items, and the sum of their costs. -/
def specScoreOf (its : List Item) (sel : List Nat) : Score :=
  ⟨sel.foldl (fun m i => u64orTripods m (its.getD i default).tripods) 0,
    sel.foldl (fun c i => c + (its.getD i default).cost) 0⟩

/-- The cursor as a Nat: `none` (the `-1` sentinel) counts 0, a tried
cursor `k` counts `k + 1`. -/
def cursorVal : Option Nat → Nat
  | none => 0
  | some k => k + 1

/-- The item indices currently held by the frames: frame `a :: rest` has
depth `rest.length + 1`, candidate list `trip.getD rest.length []`, and
holds `v.getD i 0` when its cursor is `some i`. -/
def held (trip : List (List Nat)) : List Assignment → List Nat
  | [] => []
  | a :: rest =>
    (match a.item with
      | some i => [(trip.getD rest.length []).getD i 0]
      | none => []) ++ held trip rest

/-- Every frame's cursor value is bounded by its candidate list length. -/
def CursorsOk (trip : List (List Nat)) : List Assignment → Prop
  | [] => True
  | a :: rest => cursorVal a.item ≤ (trip.getD rest.length []).length ∧ CursorsOk trip rest

/-- Number of used items of row `c` among indices below `n`. -/
def countRowN (its : List Item) (used : List Bool) (c : Nat) : Nat → Nat
  | 0 => 0
  | n + 1 =>
    countRowN its used c n +
      (if used.getD n false = true ∧ (its.getD n default).row = c then 1 else 0)

/-- Number of currently used (selected) items of row `c`. -/
def countRow (its : List Item) (used : List Bool) (c : Nat) : Nat :=
  countRowN its used c its.length

/-- Every candidate-list entry is a valid catalog index (true of
`buildTripods`, hypothesis for a general environment). -/
def TripBounded (e : Env) : Prop := ∀ l ∈ e.trip, ∀ i ∈ l, i < e.its.length

/-- The run invariant, established at line 83 and preserved by every loop
iteration: lengths are stable; cursors are in range; the held items are
distinct and are exactly the items flagged used; every row's remaining
capacity plus its selected count equals its initial capacity; `best_score`
is the last emitted score; the emitted stream strictly improves; and every
emitted solution includes an item of the deepest candidate list. -/
structure LoopInv (e : Env) (book0 : List Nat) (s : OptState) : Prop where
  usedLen : s.used.length = e.its.length
  bookLen : s.book.length = book0.length
  aLen : s.assignments.length ≤ e.trip.length
  curs : CursorsOk e.trip s.assignments
  nodup : (held e.trip s.assignments).Nodup
  heldIff : ∀ idx, s.used.getD idx false = true ↔ idx ∈ held e.trip s.assignments
  bookEq : ∀ c, s.book.getD c 0 + countRow e.its s.used c = book0.getD c 0
  outBest : s.best = (s.output.map Prod.fst).getLastD {}
  outPair : s.output.Pairwise (fun x y => Score.BetterThan y.1 x.1 e.pm = true)
  outDom : ∀ x ∈ s.output, x.1 = s.best ∨ Score.BetterThan s.best x.1 e.pm = true
  outDeep : ∀ r ∈ s.output, ∃ x, x ∈ e.trip.getD (e.trip.length - 1) [] ∧ x ∈ r.2

/-- The largest candidate-list length. -/
def maxLen (trip : List (List Nat)) : Nat := trip.foldr (fun l m => max l.length m) 0

/-- The base of the termination measure. -/
def muB (trip : List (List Nat)) : Nat := maxLen trip + 3

/-- The termination measure of the loop: a radix-`muB` number whose digit
at a frame of depth `d` is the remaining candidate potential of that
frame, weighted so that shallower frames dominate. -/
def muA (trip : List (List Nat)) : List Assignment → Nat
  | [] => 0
  | a :: rest =>
    ((trip.getD rest.length []).length + 2 - cursorVal a.item) *
        muB trip ^ (trip.length - (rest.length + 1)) +
      muA trip rest

/-- The concrete scenario of §8 of the specification: two categories of
capacity 1; item A (category 0, cost 5, traits [1]), item B (category 1,
cost 3, traits [1, 2]), item C (category 0, cost 1, traits [2]).  The
priority count is 1 and the capacity table is `[1, 1]`. -/
def catScenario : List Item := [⟨0, 5, [1]⟩, ⟨1, 3, [1, 2]⟩, ⟨0, 1, [2]⟩]

/-- A catalog on which the engine misses the global optimum: one category
of capacity 1; item 0 grants traits 1 and 2 (cost 0), item 1 grants trait
3 (cost 0).  Selecting item 0 alone covers two traits, but the engine can
only emit solutions in which the deepest frame (trait 3) selects an item,
and item 1 conflicts with item 0 on capacity. -/
def catIncomplete : List Item := [⟨0, 0, [1, 2]⟩, ⟨0, 0, [3]⟩]

/-- A catalog exposing the cost-0 anomaly of the score comparison in the
emission stream: items 0 and 1 both grant trait 1 only, at costs 0 and 5,
in one category of capacity 1.  The engine emits the cost-0 solution first
and then the cost-5 solution as an "improvement". -/
def catZeroCost : List Item := [⟨0, 0, [1]⟩, ⟨0, 5, [1]⟩]

/-- A catalog whose maximum trait identifier is 33: item 0 grants trait 32,
item 1 grants trait 33 (so candidate list 32 is `[0]` and list 33 is
`[1]`). -/
def cat32 : List Item := [⟨0, 0, [32]⟩, ⟨1, 0, [33]⟩]

/-- A search state of the `cat32` system at depth 32 (frame vector of
length 32, deepest frame untried): the frame below holds its candidate
with cumulative bitmask `2 ^ 32` — trait 33 present, trait 32 absent. -/
def st32 : OptState :=
  ⟨[false, false], [1, 1],
    ⟨none, ⟨4294967296, 0⟩⟩ :: ⟨some 0, ⟨4294967296, 0⟩⟩ :: List.replicate 30 ⟨none, {}⟩,
    {}, []⟩

/-- A catalog holding one malformed item: its category `6` is outside the
valid range `[0, kRows)`. -/
def catMalformed : List Item := [⟨6, 0, [1, 0, 0]⟩]

/-! ### Basic list lemmas -/

theorem getD_set_self {α : Type} : ∀ (l : List α) (i : Nat), i < l.length → ∀ (a d : α), (l.set i a).getD i d = a
  | [], i, h, _, _ => absurd h (by simp)
  | _ :: _, 0, _, _, _ => rfl
  | _ :: xs, i + 1, h, a, d => getD_set_self xs i (by simpa using h) a d

theorem getD_set_ne {α : Type} : ∀ (l : List α) (i j : Nat), i ≠ j → ∀ (a d : α), (l.set i a).getD j d = l.getD j d
  | [], _, _, _, _, _ => rfl
  | _ :: _, 0, 0, h, _, _ => absurd rfl h
  | _ :: _, 0, _ + 1, _, _, _ => rfl
  | _ :: _, _ + 1, 0, _, _, _ => rfl
  | _ :: xs, i + 1, j + 1, h, a, d => getD_set_ne xs i j (fun hh => h (by omega)) a d

theorem getD_mem {α : Type} : ∀ (l : List α) (i : Nat), i < l.length → ∀ (d : α), l.getD i d ∈ l
  | [], i, h, _ => absurd h (by simp)
  | x :: _, 0, _, _ => by simp
  | _ :: xs, i + 1, h, d => List.mem_cons_of_mem _ (getD_mem xs i (by simpa using h) d)

theorem getD_pos_lt : ∀ (l : List Nat) (n : Nat), l.getD n 0 ≠ 0 → n < l.length
  | [], n, h => absurd rfl h
  | _ :: _, 0, _ => by simp
  | _ :: xs, n + 1, h => by simpa using getD_pos_lt xs n h

theorem getD_replicate {α : Type} : ∀ (n i : Nat) (a : α), (List.replicate n a).getD i a = a
  | 0, _, _ => rfl
  | _ + 1, 0, _ => rfl
  | n + 1, i + 1, a => getD_replicate n i a

theorem getD_append_left {α : Type} :
    ∀ (l1 l2 : List α) (p : Nat), p < l1.length → ∀ (d : α), (l1 ++ l2).getD p d = l1.getD p d
  | [], _, p, h, _ => absurd h (by simp)
  | _ :: _, _, 0, _, _ => rfl
  | _ :: xs, l2, p + 1, h, d => getD_append_left xs l2 p (by simpa using h) d

theorem length_set_eq {α : Type} (l : List α) (i : Nat) (a : α) : (l.set i a).length = l.length :=
  List.length_set l i a

theorem getD_ge {α : Type} : ∀ (l : List α) (n : Nat), l.length ≤ n → ∀ (d : α), l.getD n d = d
  | [], _, _, _ => rfl
  | x :: xs, 0, h, d => absurd h (by simp)
  | _ :: xs, n + 1, h, d => getD_ge xs n (by simpa using h) d

/-! ### Counting selected items per row -/

theorem ite_true_and {P : Prop} [Decidable P] :
    (if true = true ∧ P then 1 else 0) = (if P then 1 else 0) := by
  by_cases h : P
  · rw [if_pos ⟨rfl, h⟩, if_pos h]
  · rw [if_neg (fun hh => h hh.2), if_neg h]

theorem ite_false_and {P : Prop} [Decidable P] :
    (if false = true ∧ P then 1 else 0) = 0 :=
  if_neg (fun h => Bool.noConfusion h.1)

theorem ite_lt_irrefl_and {P : Prop} [Decidable P] (n : Nat) :
    (if n < n ∧ P then 1 else 0) = 0 :=
  if_neg (fun h => Nat.lt_irrefl n h.1)

theorem ite_lt_succ_self_and {P : Prop} [Decidable P] (n : Nat) :
    (if n < n + 1 ∧ P then 1 else 0) = (if P then 1 else 0) := by
  by_cases h : P
  · rw [if_pos ⟨Nat.lt_succ_self n, h⟩, if_pos h]
  · rw [if_neg (fun hh => h hh.2), if_neg h]

theorem ite_lt_succ_of_ne_and {P : Prop} [Decidable P] {i n : Nat} (hne : i ≠ n) :
    (if i < n + 1 ∧ P then 1 else 0) = (if i < n ∧ P then 1 else 0) := by
  by_cases hl : i < n
  · by_cases h : P
    · rw [if_pos ⟨by omega, h⟩, if_pos ⟨hl, h⟩]
    · rw [if_neg (fun hh => h hh.2), if_neg (fun hh => h hh.2)]
  · rw [if_neg (fun hh => hl (by omega)), if_neg (fun hh => hl hh.1)]

theorem countRowN_set_true (its : List Item) (used : List Bool) (c idx : Nat)
    (hlen : idx < used.length) (hfalse : used.getD idx false = false) :
    ∀ n, countRowN its (used.set idx true) c n =
      countRowN its used c n + (if idx < n ∧ (its.getD idx default).row = c then 1 else 0)
  | 0 => by
    rw [countRowN, countRowN, if_neg (fun h => Nat.not_lt_zero idx h.1)]
  | n + 1 => by
    have ih := countRowN_set_true its used c idx hlen hfalse n
    rcases eq_or_ne n idx with hni | hni
    · subst hni
      rw [countRowN, countRowN, getD_set_self used n hlen, ih, hfalse,
        ite_lt_irrefl_and, ite_true_and, ite_false_and, ite_lt_succ_self_and]
    · have hne : idx ≠ n := hni.symm
      rw [countRowN, countRowN, getD_set_ne used idx n hne, ih,
        ite_lt_succ_of_ne_and hne]
      omega

theorem countRowN_set_false (its : List Item) (used : List Bool) (c idx : Nat)
    (hlen : idx < used.length) (htrue : used.getD idx false = true) :
    ∀ n, countRowN its (used.set idx false) c n +
        (if idx < n ∧ (its.getD idx default).row = c then 1 else 0) =
      countRowN its used c n
  | 0 => by
    rw [countRowN, countRowN, if_neg (fun h => Nat.not_lt_zero idx h.1)]
  | n + 1 => by
    have ih := countRowN_set_false its used c idx hlen htrue n
    rcases eq_or_ne n idx with hni | hni
    · subst hni
      rw [ite_lt_irrefl_and] at ih
      rw [countRowN, countRowN, getD_set_self used n hlen, htrue,
        ite_false_and, ite_lt_succ_self_and, ite_true_and]
      omega
    · have hne : idx ≠ n := hni.symm
      rw [countRowN, countRowN, getD_set_ne used idx n hne,
        ite_lt_succ_of_ne_and hne]
      omega

theorem countRowN_pos (its : List Item) (used : List Bool) (c idx : Nat)
    (htrue : used.getD idx false = true) (hrow : (its.getD idx default).row = c) :
    ∀ n, idx < n → 1 ≤ countRowN its used c n
  | 0, h => absurd h (by omega)
  | n + 1, h => by
    rcases eq_or_ne idx n with hni | hni
    · subst hni
      rw [countRowN, if_pos ⟨htrue, hrow⟩]
      omega
    · have := countRowN_pos its used c idx htrue hrow n (by omega)
      rw [countRowN]
      omega

theorem countRowN_all_false (its : List Item) (used : List Bool) (c : Nat)
    (h : ∀ m, used.getD m false = false) : ∀ n, countRowN its used c n = 0
  | 0 => rfl
  | n + 1 => by
    rw [countRowN, countRowN_all_false its used c h n,
      if_neg (fun hc => Bool.noConfusion ((h n).symm.trans hc.1))]

/-! ### The candidate scan -/

theorem scanAux_some (its : List Item) (used : List Bool) (book : List Nat) (v : List Nat) :
    ∀ (f j k : Nat), scanAux its used book v j f = some k →
      j ≤ k ∧ k < v.length ∧ used.getD (v.getD k 0) false = false ∧
        book.getD ((its.getD (v.getD k 0) default).row) 0 ≠ 0
  | 0, j, k, h => by simp [scanAux] at h
  | f + 1, j, k, h => by
    by_cases hj : j < v.length
    · simp only [scanAux, hj, if_true] at h
      by_cases hskip : used.getD (v.getD j 0) false = true ∨
          book.getD ((its.getD (v.getD j 0) default).row) 0 = 0
      · rw [if_pos hskip] at h
        have := scanAux_some its used book v f (j + 1) k h
        exact ⟨by omega, this.2⟩
      · rw [if_neg hskip] at h
        have hk : j = k := by simpa using h
        subst hk
        push_neg at hskip
        exact ⟨Nat.le_refl _, hj, by simpa using hskip.1, hskip.2⟩
    · simp [scanAux, hj] at h

theorem scanFrom_some (its : List Item) (used : List Bool) (book : List Nat) (v : List Nat)
    (j k : Nat) (h : scanFrom its used book v j = some k) :
    j ≤ k ∧ k < v.length ∧ used.getD (v.getD k 0) false = false ∧
      book.getD ((its.getD (v.getD k 0) default).row) 0 ≠ 0 :=
  scanAux_some its used book v (v.length - j) j k h

/-! ### Held items and cursors -/

theorem held_cons_none (trip : List (List Nat)) (sc : Score) (rest : List Assignment) :
    held trip (⟨none, sc⟩ :: rest) = held trip rest := rfl

theorem held_cons_some (trip : List (List Nat)) (i : Nat) (sc : Score) (rest : List Assignment) :
    held trip (⟨some i, sc⟩ :: rest) = (trip.getD rest.length []).getD i 0 :: held trip rest := rfl

theorem held_replicate (trip : List (List Nat)) (sc : Score) :
    ∀ (m : Nat) (l : List Assignment), held trip (List.replicate m ⟨none, sc⟩ ++ l) = held trip l
  | 0, l => rfl
  | m + 1, l => by
    rw [List.replicate_succ, List.cons_append, held_cons_none]
    exact held_replicate trip sc m l

theorem cursorsOk_replicate (trip : List (List Nat)) (sc : Score) :
    ∀ (m : Nat) (l : List Assignment), CursorsOk trip l →
      CursorsOk trip (List.replicate m ⟨none, sc⟩ ++ l)
  | 0, l, h => h
  | m + 1, l, h => by
    rw [List.replicate_succ, List.cons_append]
    exact ⟨by simp [cursorVal], cursorsOk_replicate trip sc m l h⟩

theorem held_sub (trip : List (List Nat)) :
    ∀ (asg : List Assignment), CursorsOk trip asg →
      ∀ x ∈ held trip asg, ∃ l ∈ trip, x ∈ l
  | [], _, x, hx => absurd hx (by simp [held])
  | ⟨item, sc⟩ :: rest, hC, x, hx => by
    obtain ⟨h1, h2⟩ := hC
    match item with
    | none =>
      rw [held_cons_none] at hx
      exact held_sub trip rest h2 x hx
    | some i =>
      rw [held_cons_some] at hx
      rcases List.mem_cons.mp hx with hx | hx
      · have hi : i < (trip.getD rest.length []).length := by
          simpa [cursorVal] using h1
        by_cases hr : rest.length < trip.length
        · exact ⟨trip.getD rest.length [], getD_mem trip rest.length hr [],
            hx ▸ getD_mem _ i hi 0⟩
        · rw [getD_ge trip rest.length (by omega)] at hi
          exact absurd hi (by simp)
      · exact held_sub trip rest h2 x hx

/-! ### The score ordering -/

theorem betterThan_trans {a b c : Score} {pm : Nat} (h1 : a.BetterThan b pm = true)
    (h2 : b.BetterThan c pm = true) : a.BetterThan c pm = true := by
  simp only [Score.BetterThan, decide_eq_true_eq] at h1 h2 ⊢
  omega

theorem ite_and_of_left {A P : Prop} [Decidable A] [Decidable P] (hA : A) :
    (if A ∧ P then 1 else 0) = if P then 1 else 0 := by
  by_cases h : P
  · rw [if_pos ⟨hA, h⟩, if_pos h]
  · rw [if_neg (fun hh => h hh.2), if_neg h]

/-! ### Preservation of the loop invariant -/

theorem loopInv_afterScan (e : Env) (bk0 : List Nat) (hTB : TripBounded e)
    (best : Score) (out : List (Score × List Nat)) (used : List Bool) (book : List Nat)
    (rest : List Assignment) (j : Nat)
    (hUL : used.length = e.its.length)
    (hBL : book.length = bk0.length)
    (hAL : rest.length + 1 ≤ e.trip.length)
    (hC : CursorsOk e.trip rest)
    (hND : (held e.trip rest).Nodup)
    (hIff : ∀ idx, used.getD idx false = true ↔ idx ∈ held e.trip rest)
    (hBE : ∀ c, book.getD c 0 + countRow e.its used c = bk0.getD c 0)
    (hOB : best = (out.map Prod.fst).getLastD {})
    (hOP : out.Pairwise (fun x y => Score.BetterThan y.1 x.1 e.pm = true))
    (hOD : ∀ x ∈ out, x.1 = best ∨ Score.BetterThan best x.1 e.pm = true)
    (hODp : ∀ r ∈ out, ∃ x, x ∈ e.trip.getD (e.trip.length - 1) [] ∧ x ∈ r.2) :
    LoopInv e bk0 (afterScan e best out used book rest j) := by
  cases hscan : scanFrom e.its used book (e.trip.getD rest.length []) j with
  | none =>
    simp only [afterScan, hscan]
    exact { usedLen := hUL, bookLen := hBL, aLen := Nat.le_of_succ_le hAL, curs := hC, nodup := hND,
            heldIff := hIff, bookEq := hBE, outBest := hOB, outPair := hOP,
            outDom := hOD, outDeep := hODp }
  | some k =>
    obtain ⟨hjk, hk, hUnused, hBookPos⟩ := scanFrom_some _ _ _ _ _ _ hscan
    have hvlt : rest.length < e.trip.length := by omega
    have hvmem : e.trip.getD rest.length [] ∈ e.trip := getD_mem _ _ hvlt _
    have hidxN : (e.trip.getD rest.length []).getD k 0 < e.its.length :=
      hTB _ hvmem _ (getD_mem _ k hk 0)
    have hidxLen : (e.trip.getD rest.length []).getD k 0 < used.length := by
      rw [hUL]; exact hidxN
    have hNotHeld : (e.trip.getD rest.length []).getD k 0 ∉ held e.trip rest := by
      intro hmem
      have := (hIff _).mpr hmem
      rw [hUnused] at this
      exact Bool.noConfusion this
    have hrlt : (e.its.getD ((e.trip.getD rest.length []).getD k 0) default).row < book.length :=
      getD_pos_lt book _ hBookPos
    have hUL2 : (used.set ((e.trip.getD rest.length []).getD k 0) true).length = e.its.length := by
      rw [List.length_set]; exact hUL
    have hBL2 : ∀ x : Nat, (book.set (e.its.getD ((e.trip.getD rest.length []).getD k 0) default).row x).length = bk0.length := by
      intro x; rw [List.length_set]; exact hBL
    have hcount : ∀ c, countRow e.its (used.set ((e.trip.getD rest.length []).getD k 0) true) c
        = countRow e.its used c +
          (if (e.its.getD ((e.trip.getD rest.length []).getD k 0) default).row = c then 1 else 0) := by
      intro c
      rw [countRow, countRow, countRowN_set_true e.its used c _ hidxLen hUnused,
        ite_and_of_left hidxN]
    have hBE2 : ∀ c,
        (book.set (e.its.getD ((e.trip.getD rest.length []).getD k 0) default).row
            (book.getD (e.its.getD ((e.trip.getD rest.length []).getD k 0) default).row 0 - 1)).getD c 0 +
          countRow e.its (used.set ((e.trip.getD rest.length []).getD k 0) true) c = bk0.getD c 0 := by
      intro c
      rcases eq_or_ne c ((e.its.getD ((e.trip.getD rest.length []).getD k 0) default).row) with hcr | hcr
      · rw [hcr, getD_set_self book _ hrlt, hcount, if_pos rfl]
        have := hBE ((e.its.getD ((e.trip.getD rest.length []).getD k 0) default).row)
        omega
      · rw [getD_set_ne book _ _ (fun h => hcr h.symm), hcount, if_neg (fun h => hcr h.symm)]
        have := hBE c
        omega
    have hIff2 : ∀ sc2 : Score, ∀ id2,
        (used.set ((e.trip.getD rest.length []).getD k 0) true).getD id2 false = true ↔
          id2 ∈ held e.trip (⟨some k, sc2⟩ :: rest) := by
      intro sc2 id2
      rw [held_cons_some]
      rcases eq_or_ne id2 ((e.trip.getD rest.length []).getD k 0) with hid | hid
      · subst hid
        rw [getD_set_self used _ hidxLen]
        simp
      · rw [getD_set_ne used _ _ (fun h => hid h.symm)]
        rw [hIff id2]
        constructor
        · exact fun h => List.mem_cons_of_mem _ h
        · intro h
          rcases List.mem_cons.mp h with h | h
          · exact absurd h hid
          · exact h
    have hND2 : ∀ sc2 : Score, (held e.trip (⟨some k, sc2⟩ :: rest)).Nodup := by
      intro sc2
      rw [held_cons_some]
      exact List.nodup_cons.mpr ⟨hNotHeld, hND⟩
    have hcurs2 : ∀ sc2 : Score, CursorsOk e.trip (⟨some k, sc2⟩ :: rest) := by
      intro sc2
      exact ⟨by simpa [cursorVal] using hk, hC⟩
    simp only [afterScan, hscan]
    split
    · -- not at full depth: grow the frame vector (line 116)
      rename_i hfull
      refine { usedLen := hUL2, bookLen := hBL2 _, aLen := ?_, curs := ?_, nodup := ?_,
               heldIff := ?_, bookEq := hBE2, outBest := hOB, outPair := hOP,
               outDom := hOD, outDeep := hODp }
      · simp only [List.length_append, List.length_replicate, List.length_cons]
        omega
      · exact cursorsOk_replicate e.trip _ _ _ (hcurs2 _)
      · rw [held_replicate]
        exact hND2 _
      · intro id2
        rw [held_replicate]
        exact hIff2 _ id2
    · split
      · -- full depth, strictly better: update best and emit (lines 117-127)
        rename_i hfull hbet
        have hfull2 : rest.length + 1 = e.trip.length := by omega
        refine { usedLen := hUL2, bookLen := hBL2 _, aLen := ?_, curs := hcurs2 _,
                 nodup := hND2 _, heldIff := hIff2 _, bookEq := hBE2, outBest := ?_,
                 outPair := ?_, outDom := ?_, outDeep := ?_ }
        · simp only [List.length_cons]
          omega
        · rw [List.map_append, List.map_cons, List.map_nil, List.getLastD_concat]
        · rw [List.pairwise_append]
          refine ⟨hOP, List.pairwise_singleton _ _, ?_⟩
          intro a ha b hb
          rw [List.mem_singleton] at hb
          subst hb
          rcases hOD a ha with h | h
          · rw [h]; exact hbet
          · exact betterThan_trans hbet h
        · intro x hx
          rcases List.mem_append.mp hx with hx | hx
          · rcases hOD x hx with h | h
            · right; rw [h]; exact hbet
            · right; exact betterThan_trans hbet h
          · left
            rw [List.mem_singleton] at hx
            rw [hx]
        · intro r hr
          rcases List.mem_append.mp hr with hr | hr
          · exact hODp r hr
          · rw [List.mem_singleton] at hr
            subst hr
            refine ⟨(e.trip.getD rest.length []).getD k 0, ?_, ?_⟩
            · have : e.trip.length - 1 = rest.length := by omega
              rw [this]
              exact getD_mem _ k hk 0
            · simp only [selectedOf]
              rw [List.mem_filter]
              refine ⟨List.mem_range.mpr hidxN, ?_⟩
              rw [getD_set_self used _ hidxLen]
      · -- full depth, not better: nothing emitted (the comparison on line 117 failed)
        rename_i hfull hbet
        refine { usedLen := hUL2, bookLen := hBL2 _, aLen := ?_, curs := hcurs2 _,
                 nodup := hND2 _, heldIff := hIff2 _, bookEq := hBE2, outBest := hOB,
                 outPair := hOP, outDom := hOD, outDeep := hODp }
        simp only [List.length_cons]
        omega

theorem loopInv_step (e : Env) (bk0 : List Nat) (hTB : TripBounded e) (s : OptState)
    (h : LoopInv e bk0 s) : LoopInv e bk0 (step e s) := by
  obtain ⟨used, book, asg, best, out⟩ := s
  obtain ⟨hUL, hBL, hAL, hC, hND, hIff, hBE, hOB, hOP, hOD, hODp⟩ := h
  dsimp only at hUL hBL hAL hC hND hIff hBE hOB hOP hOD hODp
  cases asg with
  | nil =>
    exact { usedLen := hUL, bookLen := hBL, aLen := hAL, curs := hC, nodup := hND,
            heldIff := hIff, bookEq := hBE, outBest := hOB, outPair := hOP,
            outDom := hOD, outDeep := hODp }
  | cons a rest =>
    obtain ⟨item, asc⟩ := a
    cases item with
    | none =>
      have hND2 : (held e.trip rest).Nodup := by
        rw [← held_cons_none e.trip asc rest]; exact hND
      have hIff2 : ∀ idx, used.getD idx false = true ↔ idx ∈ held e.trip rest := by
        intro idx
        rw [← held_cons_none e.trip asc rest]; exact hIff idx
      simp only [step]
      split
      · exact { usedLen := hUL, bookLen := hBL, aLen := Nat.le_of_succ_le hAL,
                curs := hC.2, nodup := hND2, heldIff := hIff2, bookEq := hBE,
                outBest := hOB, outPair := hOP, outDom := hOD, outDeep := hODp }
      · split
        · exact { usedLen := hUL, bookLen := hBL, aLen := Nat.le_of_succ_le hAL,
                  curs := hC.2, nodup := hND2, heldIff := hIff2, bookEq := hBE,
                  outBest := hOB, outPair := hOP, outDom := hOD, outDeep := hODp }
        · exact loopInv_afterScan e bk0 hTB best out used book rest 0
            hUL hBL hAL hC.2 hND2 hIff2 hBE hOB hOP hOD hODp
    | some i =>
      have hi : i < (e.trip.getD rest.length []).length := by
        have := hC.1
        simpa [cursorVal] using this
      have hmem : (e.trip.getD rest.length []).getD i 0 ∈ held e.trip (⟨some i, asc⟩ :: rest) := by
        rw [held_cons_some]
        exact List.mem_cons_self _ _
      have hUsedTrue : used.getD ((e.trip.getD rest.length []).getD i 0) false = true :=
        (hIff _).mpr hmem
      have hidxN : (e.trip.getD rest.length []).getD i 0 < e.its.length := by
        obtain ⟨l, hl, hil⟩ := held_sub e.trip _ hC _ hmem
        exact hTB l hl _ hil
      have hidxLen : (e.trip.getD rest.length []).getD i 0 < used.length := by
        rw [hUL]; exact hidxN
      have hND1 : ((e.trip.getD rest.length []).getD i 0 :: held e.trip rest).Nodup := by
        rw [← held_cons_some e.trip i asc rest]; exact hND
      have hNotHeld : (e.trip.getD rest.length []).getD i 0 ∉ held e.trip rest :=
        (List.nodup_cons.mp hND1).1
      have hIff1 : ∀ id2,
          (used.set ((e.trip.getD rest.length []).getD i 0) false).getD id2 false = true ↔
            id2 ∈ held e.trip rest := by
        intro id2
        rcases eq_or_ne id2 ((e.trip.getD rest.length []).getD i 0) with hid | hid
        · rw [hid, getD_set_self used _ hidxLen]
          constructor
          · intro hcontra; exact Bool.noConfusion hcontra
          · intro hcontra; exact absurd hcontra hNotHeld
        · rw [getD_set_ne used _ _ (fun hh => hid hh.symm)]
          rw [hIff id2, held_cons_some]
          constructor
          · intro hh
            rcases List.mem_cons.mp hh with hh | hh
            · exact absurd hh hid
            · exact hh
          · exact fun hh => List.mem_cons_of_mem _ hh
      have hcount1 : ∀ c,
          countRow e.its (used.set ((e.trip.getD rest.length []).getD i 0) false) c +
            (if (e.its.getD ((e.trip.getD rest.length []).getD i 0) default).row = c then 1 else 0) =
          countRow e.its used c := by
        intro c
        rw [countRow, countRow, ← ite_and_of_left (P := (e.its.getD ((e.trip.getD rest.length []).getD i 0) default).row = c) hidxN]
        exact countRowN_set_false e.its used c _ hidxLen hUsedTrue e.its.length
      have hcpos : 1 ≤ countRow e.its used ((e.its.getD ((e.trip.getD rest.length []).getD i 0) default).row) :=
        countRowN_pos e.its used _ _ hUsedTrue rfl e.its.length hidxN
      have hrlt : (e.its.getD ((e.trip.getD rest.length []).getD i 0) default).row < book.length := by
        rw [hBL]
        apply getD_pos_lt bk0
        have := hBE ((e.its.getD ((e.trip.getD rest.length []).getD i 0) default).row)
        omega
      have hBE1 : ∀ c,
          (book.set ((e.its.getD ((e.trip.getD rest.length []).getD i 0) default).row)
              (book.getD ((e.its.getD ((e.trip.getD rest.length []).getD i 0) default).row) 0 + 1)).getD c 0 +
            countRow e.its (used.set ((e.trip.getD rest.length []).getD i 0) false) c =
          bk0.getD c 0 := by
        intro c
        rcases eq_or_ne c ((e.its.getD ((e.trip.getD rest.length []).getD i 0) default).row) with hcr | hcr
        · rw [hcr, getD_set_self book _ hrlt]
          have h1 := hcount1 ((e.its.getD ((e.trip.getD rest.length []).getD i 0) default).row)
          rw [if_pos rfl] at h1
          have h2 := hBE ((e.its.getD ((e.trip.getD rest.length []).getD i 0) default).row)
          omega
        · rw [getD_set_ne book _ _ (fun hh => hcr hh.symm)]
          have h1 := hcount1 c
          rw [if_neg (fun hh => hcr hh.symm)] at h1
          have h2 := hBE c
          omega
      simp only [step]
      exact loopInv_afterScan e bk0 hTB best out _ _ rest (i + 1)
        (by rw [List.length_set]; exact hUL) (by rw [List.length_set]; exact hBL)
        hAL hC.2 (List.nodup_cons.mp hND1).2 hIff1 hBE1 hOB hOP hOD hODp

theorem loopInv_init (e : Env) (bk0 : List Nat) : LoopInv e bk0 (initState e bk0) := by
  have hrep : ∀ m : Nat, (List.replicate e.its.length false).getD m false = false := fun m =>
    getD_replicate e.its.length m false
  have hasg : (List.replicate e.trip.length (⟨none, {}⟩ : Assignment)) =
      List.replicate e.trip.length ⟨none, {}⟩ ++ [] := (List.append_nil _).symm
  refine { usedLen := List.length_replicate _ _, bookLen := rfl,
           aLen := Nat.le_of_eq (List.length_replicate _ _), curs := ?_, nodup := ?_,
           heldIff := ?_, bookEq := ?_, outBest := rfl, outPair := List.Pairwise.nil,
           outDom := ?_, outDeep := ?_ }
  · rw [initState, hasg]
    exact cursorsOk_replicate e.trip {} e.trip.length [] trivial
  · rw [initState, hasg, held_replicate]
    exact List.nodup_nil
  · intro idx
    rw [initState, hasg, held_replicate]
    constructor
    · intro hcontra
      rw [hrep idx] at hcontra
      exact Bool.noConfusion hcontra
    · intro hcontra
      exact absurd hcontra (List.not_mem_nil idx)
  · intro c
    rw [initState]
    rw [countRow, countRowN_all_false e.its _ c hrep]
    exact Nat.add_zero _
  · intro x hx
    exact absurd hx (List.not_mem_nil x)
  · intro r hr
    exact absurd hr (List.not_mem_nil r)

theorem loopInv_run (e : Env) (bk0 : List Nat) (hTB : TripBounded e) :
    ∀ (n : Nat) (s : OptState), LoopInv e bk0 s → LoopInv e bk0 (run e n s)
  | 0, _, h => h
  | n + 1, s, h => by
    rw [run]
    split
    · exact h
    · exact loopInv_run e bk0 hTB n (step e s) (loopInv_step e bk0 hTB s h)

/-! ### The catalog index: bounds and membership -/

theorem addTrait_bound {P : Nat → Prop} (acc : List (List Nat)) (i t : Nat)
    (hacc : ∀ l ∈ acc, ∀ x ∈ l, P x) (hi : P i) :
    ∀ l ∈ addTrait acc i t, ∀ x ∈ l, P x := by
  intro l hl x hx
  by_cases ht : t = 0
  · rw [addTrait, if_pos ht] at hl
    exact hacc l hl x hx
  · simp only [addTrait, if_neg ht] at hl
    have hacc2 : ∀ l2 ∈ acc ++ List.replicate (t - acc.length) [], ∀ x2 ∈ l2, P x2 := by
      intro l2 hl2 x2 hx2
      rcases List.mem_append.mp hl2 with h | h
      · exact hacc l2 h x2 hx2
      · rw [List.eq_of_mem_replicate h] at hx2
        exact absurd hx2 (List.not_mem_nil x2)
    rcases List.mem_or_eq_of_mem_set hl with h | h
    · exact hacc2 l h x hx
    · subst h
      rcases List.mem_append.mp hx with h | h
      · by_cases hr : t - 1 < (acc ++ List.replicate (t - acc.length) []).length
        · exact hacc2 _ (getD_mem _ _ hr _) x h
        · rw [getD_ge _ _ (by omega)] at h
          exact absurd h (List.not_mem_nil x)
      · rw [List.mem_singleton] at h
        rw [h]
        exact hi

theorem foldl_addTrait_bound {P : Nat → Prop} (i : Nat) (hi : P i) :
    ∀ (ts : List Nat) (acc : List (List Nat)), (∀ l ∈ acc, ∀ x ∈ l, P x) →
      ∀ l ∈ ts.foldl (fun a t => addTrait a i t) acc, ∀ x ∈ l, P x
  | [], _, hacc => hacc
  | t :: ts, acc, hacc =>
    foldl_addTrait_bound i hi ts (addTrait acc i t) (addTrait_bound acc i t hacc hi)

theorem buildAux_bound {N : Nat} :
    ∀ (l : List Item) (i : Nat) (acc : List (List Nat)), i + l.length ≤ N →
      (∀ l2 ∈ acc, ∀ x ∈ l2, x < N) → ∀ l2 ∈ buildAux i l acc, ∀ x ∈ l2, x < N
  | [], _, _, _, hacc => hacc
  | it :: rest, i, acc, hle, hacc => by
    rw [buildAux]
    have hlen : i + 1 + rest.length ≤ N := by
      simp only [List.length_cons] at hle
      omega
    have hi : i < N := by
      simp only [List.length_cons] at hle
      omega
    exact buildAux_bound rest (i + 1) _ hlen
      (foldl_addTrait_bound (P := fun x => x < N) i hi it.tripods acc hacc)

theorem buildTripods_bound (its : List Item) :
    ∀ l ∈ buildTripods its, ∀ x ∈ l, x < its.length :=
  buildAux_bound its 0 [] (by simp) (fun l hl => absurd hl (List.not_mem_nil l))

theorem mkEnv_tripBounded (its : List Item) (p : Nat) (r : Bool) :
    TripBounded (mkEnv its p r) :=
  buildTripods_bound its

/-! ### Termination of the search loop -/

theorem maxLen_le : ∀ (trip : List (List Nat)) (l : List Nat), l ∈ trip → l.length ≤ maxLen trip
  | [], l, hl => absurd hl (List.not_mem_nil l)
  | hd :: tl, l, hl => by
    rcases List.mem_cons.mp hl with h | h
    · rw [h, maxLen]
      exact le_max_left _ _
    · exact le_trans (maxLen_le tl l h) (le_max_right _ _)

theorem getD_maxLen (trip : List (List Nat)) (n : Nat) :
    (trip.getD n []).length ≤ maxLen trip := by
  by_cases h : n < trip.length
  · exact maxLen_le trip _ (getD_mem trip n h [])
  · rw [getD_ge trip n (by omega)]
    exact Nat.zero_le _

theorem muB_ge (trip : List (List Nat)) : 3 ≤ muB trip := Nat.le_add_left 3 (maxLen trip)

theorem muA_rep (trip : List (List Nat)) (sc : Score) :
    ∀ (m e2 : Nat) (l : List Assignment), m + l.length + e2 = trip.length →
      muA trip (List.replicate m ⟨none, sc⟩ ++ l) + muB trip ^ e2 ≤
        muB trip ^ (e2 + m) + muA trip l
  | 0, e2, l, _ => by
    rw [List.replicate, List.nil_append, Nat.add_zero]
    omega
  | m + 1, e2, l, hlen => by
    rw [List.replicate_succ, List.cons_append, muA]
    have hrl : (List.replicate m (⟨none, sc⟩ : Assignment) ++ l).length = m + l.length := by
      rw [List.length_append, List.length_replicate]
    rw [hrl]
    have hexp : trip.length - (m + l.length + 1) = e2 := by omega
    rw [hexp]
    have hcv : cursorVal (⟨none, sc⟩ : Assignment).item = 0 := rfl
    rw [hcv, Nat.sub_zero]
    have hhead : ((trip.getD (m + l.length) []).length + 2) * muB trip ^ e2 ≤
        (muB trip - 1) * muB trip ^ e2 := by
      apply Nat.mul_le_mul_right
      have := getD_maxLen trip (m + l.length)
      have := muB_ge trip
      rw [muB] at *
      omega
    have hih := muA_rep trip sc m (e2 + 1) l (by omega)
    have hkey : (muB trip - 1) * muB trip ^ e2 + muB trip ^ e2 = muB trip ^ (e2 + 1) := by
      rw [Nat.sub_one_mul, pow_succ, Nat.mul_comm (muB trip ^ e2) (muB trip)]
      have h1 : muB trip ^ e2 ≤ muB trip * muB trip ^ e2 :=
        Nat.le_mul_of_pos_left _ (by have := muB_ge trip; omega)
      omega
    have hexp2 : e2 + 1 + m = e2 + (m + 1) := by omega
    rw [hexp2] at hih
    omega

theorem muA_cons (trip : List (List Nat)) (a : Assignment) (rest : List Assignment) :
    muA trip (a :: rest) =
      ((trip.getD rest.length []).length + 2 - cursorVal a.item) *
          muB trip ^ (trip.length - (rest.length + 1)) + muA trip rest := rfl

theorem muA_afterScan_lt (e : Env) (best : Score) (out : List (Score × List Nat))
    (used : List Bool) (book : List Nat) (rest : List Assignment) (j cv0 : Nat)
    (hAL : rest.length + 1 ≤ e.trip.length)
    (hcv : cv0 ≤ (e.trip.getD rest.length []).length)
    (hj : cv0 ≤ j) :
    muA e.trip (afterScan e best out used book rest j).assignments <
      ((e.trip.getD rest.length []).length + 2 - cv0) *
          muB e.trip ^ (e.trip.length - (rest.length + 1)) + muA e.trip rest := by
  have hBpos : 1 ≤ muB e.trip ^ (e.trip.length - (rest.length + 1)) :=
    Nat.one_le_pow _ _ (by have := muB_ge e.trip; omega)
  cases hscan : scanFrom e.its used book (e.trip.getD rest.length []) j with
  | none =>
    simp only [afterScan, hscan]
    have h2 : 2 ≤ ((e.trip.getD rest.length []).length + 2 - cv0) := by omega
    have : 2 * 1 ≤ ((e.trip.getD rest.length []).length + 2 - cv0) *
        muB e.trip ^ (e.trip.length - (rest.length + 1)) := Nat.mul_le_mul h2 hBpos
    omega
  | some k =>
    obtain ⟨hjk, hk, _, _⟩ := scanFrom_some _ _ _ _ _ _ hscan
    have hnew : ∀ sc : Score, muA e.trip ((⟨some k, sc⟩ : Assignment) :: rest) =
        ((e.trip.getD rest.length []).length + 1 - k) *
            muB e.trip ^ (e.trip.length - (rest.length + 1)) + muA e.trip rest := by
      intro sc
      rw [muA_cons]
      have hcvk : cursorVal (⟨some k, sc⟩ : Assignment).item = k + 1 := rfl
      rw [hcvk]
      congr 2
      omega
    simp only [afterScan, hscan]
    split
    · rename_i hfull
      have hlt : rest.length + 1 < e.trip.length := by omega
      have key : ∀ sc : Score,
          muA e.trip (List.replicate (e.trip.length - (rest.length + 1)) ⟨none, sc⟩ ++
              (⟨some k, sc⟩ :: rest)) <
            ((e.trip.getD rest.length []).length + 2 - cv0) *
                muB e.trip ^ (e.trip.length - (rest.length + 1)) + muA e.trip rest := by
        intro sc
        have hm : (e.trip.length - (rest.length + 1)) +
            ((⟨some k, sc⟩ :: rest : List Assignment)).length + 0 = e.trip.length := by
          simp only [List.length_cons]
          omega
        have hrep := muA_rep e.trip sc (e.trip.length - (rest.length + 1)) 0 _ hm
        rw [pow_zero, Nat.zero_add, hnew sc] at hrep
        have hcoef : ((e.trip.getD rest.length []).length + 1 - k) + 1 ≤
            ((e.trip.getD rest.length []).length + 2 - cv0) := by omega
        have hmul : (((e.trip.getD rest.length []).length + 1 - k) + 1) *
              muB e.trip ^ (e.trip.length - (rest.length + 1)) ≤
            ((e.trip.getD rest.length []).length + 2 - cv0) *
              muB e.trip ^ (e.trip.length - (rest.length + 1)) :=
          Nat.mul_le_mul_right _ hcoef
        rw [Nat.add_mul, Nat.one_mul] at hmul
        omega
      exact key _
    · rename_i hfull
      have hzero : e.trip.length - (rest.length + 1) = 0 := by omega
      split
      all_goals
        rw [hnew _, hzero, pow_zero, Nat.mul_one, Nat.mul_one]
        omega

theorem muA_pos (e : Env) (bk0 : List Nat) (s : OptState) (h : LoopInv e bk0 s)
    (hne : s.assignments ≠ []) : 1 ≤ muA e.trip s.assignments := by
  obtain ⟨used, book, asg, best, out⟩ := s
  cases asg with
  | nil => exact absurd rfl hne
  | cons a rest =>
    have hcv : cursorVal a.item ≤ (e.trip.getD rest.length []).length := h.curs.1
    show 1 ≤ muA e.trip (a :: rest)
    rw [muA_cons]
    have hBpos : 1 ≤ muB e.trip ^ (e.trip.length - (rest.length + 1)) :=
      Nat.one_le_pow _ _ (by have := muB_ge e.trip; omega)
    have h2 : 2 ≤ (e.trip.getD rest.length []).length + 2 - cursorVal a.item := by omega
    have := Nat.mul_le_mul h2 hBpos
    omega

theorem muA_step_lt (e : Env) (bk0 : List Nat) (s : OptState) (h : LoopInv e bk0 s)
    (hne : s.assignments ≠ []) :
    muA e.trip (step e s).assignments < muA e.trip s.assignments := by
  obtain ⟨used, book, asg, best, out⟩ := s
  obtain ⟨hUL, hBL, hAL, hC, hND, hIff, hBE, hOB, hOP, hOD, hODp⟩ := h
  dsimp only at hUL hBL hAL hC hND hIff hBE hOB hOP hOD hODp
  cases asg with
  | nil => exact absurd rfl hne
  | cons a rest =>
    obtain ⟨item, asc⟩ := a
    have hcv : cursorVal item ≤ (e.trip.getD rest.length []).length := hC.1
    have hBpos : 1 ≤ muB e.trip ^ (e.trip.length - (rest.length + 1)) :=
      Nat.one_le_pow _ _ (by have := muB_ge e.trip; omega)
    cases item with
    | some i =>
      simp only [step]
      exact muA_afterScan_lt e best out _ _ rest (i + 1) (cursorVal (some i)) hAL hcv
        (Nat.le_refl _)
    | none =>
      simp only [step]
      split
      · show muA e.trip rest < muA e.trip (⟨none, asc⟩ :: rest)
        rw [muA_cons]
        have hc0 : cursorVal (⟨none, asc⟩ : Assignment).item = 0 := rfl
        rw [hc0, Nat.sub_zero]
        have := Nat.mul_le_mul (Nat.le_add_left 2 (e.trip.getD rest.length []).length) hBpos
        omega
      · split
        · show muA e.trip rest < muA e.trip (⟨none, asc⟩ :: rest)
          rw [muA_cons]
          have hc0 : cursorVal (⟨none, asc⟩ : Assignment).item = 0 := rfl
          rw [hc0, Nat.sub_zero]
          have := Nat.mul_le_mul (Nat.le_add_left 2 (e.trip.getD rest.length []).length) hBpos
          omega
        · exact muA_afterScan_lt e best out _ _ rest 0 (cursorVal none) hAL hcv
            (Nat.le_refl _)

theorem run_terminates (e : Env) (bk0 : List Nat) (hTB : TripBounded e) :
    ∀ (m : Nat) (s : OptState), LoopInv e bk0 s → muA e.trip s.assignments ≤ m →
      (run e (m + 1) s).assignments = []
  | 0, s, h, hmu => by
    rw [run]
    split
    · rename_i hemp
      exact hemp
    · rename_i hemp
      exact absurd hmu (by have := muA_pos e bk0 s h hemp; omega)
  | m + 1, s, h, hmu => by
    rw [run]
    split
    · rename_i hemp
      exact hemp
    · rename_i hemp
      exact run_terminates e bk0 hTB m (step e s) (loopInv_step e bk0 hTB s h)
        (by have := muA_step_lt e bk0 s h hemp; omega)

theorem addTrait_mem_preserved (acc : List (List Nat)) (i t p x : Nat)
    (hx : x ∈ acc.getD p []) : x ∈ (addTrait acc i t).getD p [] := by
  by_cases ht : t = 0
  · rw [addTrait, if_pos ht]
    exact hx
  · simp only [addTrait, if_neg ht]
    by_cases hp : p < acc.length
    · have hlen2 : (acc ++ List.replicate (t - acc.length) []).length =
          acc.length + (t - acc.length) := by
        rw [List.length_append, List.length_replicate]
      have ht1 : t - 1 < (acc ++ List.replicate (t - acc.length) []).length := by omega
      have hacc2 : (acc ++ List.replicate (t - acc.length) []).getD p [] = acc.getD p [] :=
        getD_append_left acc _ p hp []
      rcases eq_or_ne p (t - 1) with hpt | hpt
      · rw [hpt, getD_set_self _ _ ht1]
        apply List.mem_append_left
        rw [← hpt, hacc2]
        exact hx
      · rw [getD_set_ne _ _ _ (fun hh => hpt hh.symm), hacc2]
        exact hx
    · rw [getD_ge acc p (by omega)] at hx
      exact absurd hx (List.not_mem_nil x)

theorem addTrait_mem_self (acc : List (List Nat)) (i t : Nat) (ht : t ≠ 0) :
    i ∈ (addTrait acc i t).getD (t - 1) [] := by
  simp only [addTrait, if_neg ht]
  have hlen2 : (acc ++ List.replicate (t - acc.length) []).length =
      acc.length + (t - acc.length) := by
    rw [List.length_append, List.length_replicate]
  have ht1 : t - 1 < (acc ++ List.replicate (t - acc.length) []).length := by omega
  rw [getD_set_self _ _ ht1]
  exact List.mem_append_right _ (List.mem_singleton.mpr rfl)

theorem foldl_addTrait_mem (i p x : Nat) :
    ∀ (ts : List Nat) (acc : List (List Nat)), x ∈ acc.getD p [] →
      x ∈ (ts.foldl (fun a t => addTrait a i t) acc).getD p []
  | [], _, hx => hx
  | t :: ts, acc, hx =>
    foldl_addTrait_mem i p x ts (addTrait acc i t) (addTrait_mem_preserved acc i t p x hx)

theorem foldl_addTrait_self (i : Nat) :
    ∀ (ts : List Nat) (acc : List (List Nat)) (t : Nat), t ∈ ts → t ≠ 0 →
      i ∈ (ts.foldl (fun a t2 => addTrait a i t2) acc).getD (t - 1) []
  | [], _, t, ht, _ => absurd ht (List.not_mem_nil t)
  | t2 :: ts, acc, t, ht, ht0 => by
    rcases List.mem_cons.mp ht with h | h
    · rw [h] at ht0 ⊢
      exact foldl_addTrait_mem i (t2 - 1) i ts (addTrait acc i t2)
        (addTrait_mem_self acc i t2 ht0)
    · exact foldl_addTrait_self i ts (addTrait acc i t2) t h ht0

theorem buildAux_mem (p x : Nat) :
    ∀ (l : List Item) (i : Nat) (acc : List (List Nat)), x ∈ acc.getD p [] →
      x ∈ (buildAux i l acc).getD p []
  | [], _, _, hx => hx
  | it :: rest, i, acc, hx =>
    buildAux_mem p x rest (i + 1) _ (foldl_addTrait_mem i p x it.tripods acc hx)

theorem buildAux_adds :
    ∀ (l : List Item) (i k : Nat) (acc : List (List Nat)) (t : Nat), k < l.length →
      t ∈ (l.getD k default).tripods → t ≠ 0 → (i + k) ∈ (buildAux i l acc).getD (t - 1) []
  | [], _, k, _, _, hk, _, _ => absurd hk (by simp)
  | it :: rest, i, k, acc, t, hk, ht, ht0 => by
    cases k with
    | zero =>
      rw [Nat.add_zero, buildAux]
      exact buildAux_mem (t - 1) i rest (i + 1) _
        (foldl_addTrait_self i it.tripods acc t ht ht0)
    | succ k2 =>
      have hcast : i + (k2 + 1) = (i + 1) + k2 := by omega
      rw [hcast, buildAux]
      exact buildAux_adds rest (i + 1) k2 _ t (by simpa using hk) ht ht0

theorem buildTripods_adds (its : List Item) (i t : Nat) (hi : i < its.length)
    (ht : t ∈ (its.getD i default).tripods) (ht0 : t ≠ 0) :
    i ∈ (buildTripods its).getD (t - 1) [] := by
  have h := buildAux_adds its 0 i [] t hi ht ht0
  rw [Nat.zero_add] at h
  exact h

theorem all_false_replicate : ∀ (l : List Bool), (∀ m, l.getD m false = false) →
    l = List.replicate l.length false
  | [], _ => rfl
  | b :: xs, h => by
    have hb : b = false := h 0
    have htail := all_false_replicate xs (fun m => h (m + 1))
    rw [List.length_cons, List.replicate_succ, hb]
    exact congrArg (List.cons false) htail

theorem afterScan_empty (e : Env) (best : Score) (out : List (Score × List Nat))
    (used : List Bool) (book : List Nat) (rest : List Assignment) (j : Nat)
    (hemp : (afterScan e best out used book rest j).assignments = []) : rest = [] := by
  cases hscan : scanFrom e.its used book (e.trip.getD rest.length []) j with
  | none =>
    simp only [afterScan, hscan] at hemp
    exact hemp
  | some k =>
    simp only [afterScan, hscan] at hemp
    split at hemp
    · exact absurd hemp (by simp)
    · split at hemp
      · exact absurd hemp (by simp)
      · exact absurd hemp (by simp)

theorem step_empty_length (e : Env) (s : OptState) (hne : s.assignments ≠ [])
    (hemp : (step e s).assignments = []) : s.assignments.length = 1 := by
  obtain ⟨used, book, asg, best, out⟩ := s
  cases asg with
  | nil => exact absurd rfl hne
  | cons a rest =>
    obtain ⟨item, asc⟩ := a
    suffices h : rest = [] by
      rw [List.length_cons, h]
      rfl
    cases item with
    | some i =>
      simp only [step] at hemp
      exact afterScan_empty e best out _ _ rest (i + 1) hemp
    | none =>
      simp only [step] at hemp
      split at hemp
      · exact hemp
      · split at hemp
        · exact hemp
        · exact afterScan_empty e best out used book rest 0 hemp

/-! ### The claims -/

set_option maxRecDepth 400000

/-- C1 (counterexample): two exhaustive runs on which the final
best-solution record is beaten, under the §3 ordering, by a feasible
selection.  On `catIncomplete` (priority count 0, one capacity slot) the
feasible selection `[0]` (item 0 alone, covering traits 1 and 2 at cost 0)
scores strictly better than the final record.  On `catZeroCost` the engine
even emits a §3-worsening step — the cost-0 solution `(1, 0)` first, then
the cost-5 solution `(1, 5)` as the final "best" — and the feasible
selection `[0]` (same coverage, cost 0) beats that final record; this is
why the amended claim can only assert monotonicity under the engine's own
comparison, not under §3. -/
theorem C1_counterexample :
    ((OptimizeRun catIncomplete 0 [1] 30).assignments = [] ∧
      specFeasible catIncomplete [1] [0] ∧
      specBetter (specScoreOf catIncomplete [0])
        (OptimizeRun catIncomplete 0 [1] 30).best (prioMaskOf 0)) ∧
    ((OptimizeRun catZeroCost 0 [1] 20).assignments = [] ∧
      (OptimizeRun catZeroCost 0 [1] 20).output = [(⟨1, 0⟩, [0]), (⟨1, 5⟩, [1])] ∧
      specBetter ⟨1, 0⟩ ⟨1, 5⟩ (prioMaskOf 0) ∧
      specFeasible catZeroCost [1] [0] ∧
      specBetter (specScoreOf catZeroCost [0])
        (OptimizeRun catZeroCost 0 [1] 20).best (prioMaskOf 0)) := by
  decide

/-- C1 (amended): for every catalog, capacity table, priority count and
iteration count, the emitted solutions strictly improve under the
engine's own comparison `Score.BetterThan` (the ordering of lines 51-56,
which diverges from the §3 ordering exactly where the unsigned cost
negation does, i.e. whenever a cost-0 score is compared, per C4), and the
best-solution record always equals the last emitted score (the zero score
while nothing has been emitted): the final record is the maximum of the
emitted solutions under the engine's own ordering.  It is not in general
the global optimum over all feasible selections (the counterexample), and
the emitted stream need not be increasing under the true §3 ordering. -/
theorem C1_amended_last_emitted_is_best (its : List Item) (prioT : Nat) (book0 : List Nat)
    (fuel : Nat) :
    (OptimizeRun its prioT book0 fuel).output.Pairwise
      (fun x y => Score.BetterThan y.1 x.1 (prioMaskOf prioT) = true) ∧
    (OptimizeRun its prioT book0 fuel).best =
      ((OptimizeRun its prioT book0 fuel).output.map Prod.fst).getLastD {} := by
  have hI := loopInv_run (mkEnv its prioT true) book0 (mkEnv_tripBounded its prioT true)
    fuel (initState (mkEnv its prioT true) book0) (loopInv_init (mkEnv its prioT true) book0)
  exact ⟨hI.outPair, hI.outBest⟩

/-- C2: on the §8 scenario (catalog `catScenario`, capacities `[1, 1]`,
priority count 1) the engine runs to exhaustion and its final (and only)
emitted solution is `{A, B}` — items 0 and 1, bitmask 3 (traits 1 and 2),
cost 8 — whereas the selection `{B}` (item 1 alone) is feasible, covers
the same traits at cost 3, and is strictly better under the §3 ordering.
The claimed optimum `{B}` is never emitted: the code contradicts its own
header documentation ("the total cost of bought items (min)"). -/
theorem C2_code_result :
    (OptimizeRun catScenario 1 [1, 1] 50).assignments = [] ∧
    (OptimizeRun catScenario 1 [1, 1] 50).best = ⟨3, 8⟩ ∧
    (OptimizeRun catScenario 1 [1, 1] 50).output = [(⟨3, 8⟩, [0, 1])] ∧
    specFeasible catScenario [1, 1] [1] ∧
    specScoreOf catScenario [1] = ⟨3, 3⟩ ∧
    specBetter ⟨3, 3⟩ ⟨3, 8⟩ (prioMaskOf 1) := by
  decide

/-- C3: on the §8 scenario, the engine with the redundancy prune of line
93 enabled ends with best cost 8, while the engine with that prune
disabled ends with best cost 4 (the selection `{B, C}`): disabling the
prune changes the final optimum, refuting the claim that the prune only
affects search time. -/
theorem C3_prune_changes_result :
    (OptimizeRun catScenario 1 [1, 1] 50).assignments = [] ∧
    (OptimizeRunNoRed catScenario 1 [1, 1] 50).assignments = [] ∧
    (OptimizeRun catScenario 1 [1, 1] 50).best = ⟨3, 8⟩ ∧
    (OptimizeRunNoRed catScenario 1 [1, 1] 50).best = ⟨3, 4⟩ ∧
    (OptimizeRun catScenario 1 [1, 1] 50).best ≠
      (OptimizeRunNoRed catScenario 1 [1, 1] 50).best := by
  decide

/-- C4: `Score.BetterThan` does not implement the §3 ordering at cost 0:
with equal trait bitmasks (hence equal priority and total counts), the
score of cost 0 is reported strictly worse than the score of cost 5, and
the score of cost 5 strictly better than the score of cost 0 — the
C++ `-x.cost` negates an unsigned 32-bit integer, so `-0 = 0` while
`-5 = 2^32 - 5`, inverting the tiebreak whenever one cost is zero. -/
theorem C4_zero_cost_anomaly :
    Score.BetterThan ⟨1, 0⟩ ⟨1, 5⟩ 1 = false ∧
    Score.BetterThan ⟨1, 5⟩ ⟨1, 0⟩ 1 = true ∧
    (0 : Nat) < 5 := by
  decide

/-- C5: at depth `k = 32` the redundancy prune misfires.  In the state
`st32` (frame vector of length 32, deepest frame untried, inherited
bitmask `2 ^ 32`, i.e. trait 33 present and trait 32 absent — witness
`u64and (2^32) (2^31) = 0`), a step of the engine pops the frame (the
frame vector shrinks to 31) even though candidate list 32 holds an
eligible item: `1 << 31` is computed in 32-bit `int` arithmetic, so the
converted mask `redPop` tests covers bits 31..63 instead of bit 31
alone. -/
theorem C5_prune_misfire :
    redPop 4294967296 32 = true ∧
    u64and 4294967296 2147483648 = 0 ∧
    (step (mkEnv cat32 0 true) st32).assignments.length = 31 := by
  decide

/-- C6: every solution the engine emits contains an item drawn from the
deepest candidate list (`candidate_lists[T]`): emission happens only when
the frame for the maximal trait itself selects one of its candidates
(lines 115-127), so the just-selected item of list `T` is part of the
printed selection. -/
theorem C6_emitted_contains_deepest (its : List Item) (prioT : Nat) (book0 : List Nat)
    (fuel : Nat) (rec : Score × List Nat)
    (h : rec ∈ (OptimizeRun its prioT book0 fuel).output) :
    ∃ x, x ∈ (buildTripods its).getD ((buildTripods its).length - 1) [] ∧ x ∈ rec.2 := by
  have hI := loopInv_run (mkEnv its prioT true) book0 (mkEnv_tripBounded its prioT true)
    fuel (initState (mkEnv its prioT true) book0) (loopInv_init (mkEnv its prioT true) book0)
  exact hI.outDeep rec h

/-- C6 witness: the emitted solution of the §8 scenario contains an item
of candidate list 2 (the deepest). -/
theorem C6_witness :
    ∃ x, x ∈ (buildTripods catScenario).getD ((buildTripods catScenario).length - 1) [] ∧
      x ∈ ((⟨3, 8⟩, [0, 1]) : Score × List Nat).2 :=
  C6_emitted_contains_deepest catScenario 1 [1, 1] 50 (⟨3, 8⟩, [0, 1]) (by decide)

/-- C7: the capacity invariant holds after every loop iteration: for every
category `c`, the remaining capacity plus the number of currently selected
items of category `c` equals the initial capacity (hence, in particular,
the selected count never exceeds the initial capacity and the remaining
capacity never goes negative). -/
theorem C7_capacity_invariant (its : List Item) (prioT : Nat) (book0 : List Nat)
    (fuel : Nat) (c : Nat) :
    (OptimizeRun its prioT book0 fuel).book.getD c 0 +
      countRow its (OptimizeRun its prioT book0 fuel).used c = book0.getD c 0 := by
  have hI := loopInv_run (mkEnv its prioT true) book0 (mkEnv_tripBounded its prioT true)
    fuel (initState (mkEnv its prioT true) book0) (loopInv_init (mkEnv its prioT true) book0)
  exact hI.bookEq c

/-- C8: for every finite catalog, capacity table and priority count the
search loop terminates — some finite fuel empties the frame vector, after
which the state is final — and the loop can only become empty by popping a
frame vector of length 1, i.e. the frame for trait 1 itself. -/
theorem C8_terminates (its : List Item) (prioT : Nat) (book0 : List Nat) :
    (∃ fuel, (OptimizeRun its prioT book0 fuel).assignments = []) ∧
    (∀ s : OptState, s.assignments ≠ [] →
      (step (mkEnv its prioT true) s).assignments = [] → s.assignments.length = 1) := by
  constructor
  · refine ⟨muA (buildTripods its) (initState (mkEnv its prioT true) book0).assignments + 1, ?_⟩
    exact run_terminates (mkEnv its prioT true) book0 (mkEnv_tripBounded its prioT true)
      _ _ (loopInv_init (mkEnv its prioT true) book0) (Nat.le_refl _)
  · exact fun s hne hemp => step_empty_length (mkEnv its prioT true) s hne hemp

/-- C9 (counterexample): the Catalog Index build step does not reject
malformed input: on the catalog whose only item has category 6 (outside
`[0, kRows)`), `buildTripods` silently builds the candidate lists and
places the malformed item into candidate list 1 instead of failing. -/
theorem C9_counterexample :
    buildTripods catMalformed = [[0]] ∧ kRows ≤ (catMalformed.getD 0 default).row := by
  decide

/-- C9 (amended): the build step performs no validation at all: every
nonzero trait entry of every catalog item is appended to that trait's
candidate list regardless of the item's category, so malformed entries
flow into the candidate lists unchecked (and an out-of-range category is
only ever met later, as an out-of-bounds capacity-table access in the
C++ search). -/
theorem C9_amended_no_validation (its : List Item) (i t : Nat) (hi : i < its.length)
    (ht : t ∈ (its.getD i default).tripods) (ht0 : t ≠ 0) :
    i ∈ (buildTripods its).getD (t - 1) [] :=
  buildTripods_adds its i t hi ht ht0

/-- C9 witness: the malformed item of `catMalformed` (category 6) lands in
candidate list 1. -/
theorem C9_amended_witness : 0 ∈ (buildTripods catMalformed).getD 0 [] :=
  C9_amended_no_validation catMalformed 0 1 (by decide) (by decide) (by decide)

/-- C10: the loop runs to exhaustion with some finite fuel, and in the
final state every `used` flag is false — each selection made during the
search was undone on backtrack, so the catalog's selection state is
restored to its initial all-false value. -/
theorem C10_used_restored (its : List Item) (prioT : Nat) (book0 : List Nat) :
    ∃ fuel, (OptimizeRun its prioT book0 fuel).assignments = [] ∧
      (OptimizeRun its prioT book0 fuel).used = List.replicate its.length false := by
  refine ⟨muA (buildTripods its) (initState (mkEnv its prioT true) book0).assignments + 1,
    ?_, ?_⟩
  · exact run_terminates (mkEnv its prioT true) book0 (mkEnv_tripBounded its prioT true)
      _ _ (loopInv_init (mkEnv its prioT true) book0) (Nat.le_refl _)
  · have hterm := run_terminates (mkEnv its prioT true) book0 (mkEnv_tripBounded its prioT true)
      (muA (buildTripods its) (initState (mkEnv its prioT true) book0).assignments)
      (initState (mkEnv its prioT true) book0) (loopInv_init (mkEnv its prioT true) book0)
      (Nat.le_refl _)
    have hI := loopInv_run (mkEnv its prioT true) book0 (mkEnv_tripBounded its prioT true)
      (muA (buildTripods its) (initState (mkEnv its prioT true) book0).assignments + 1)
      (initState (mkEnv its prioT true) book0) (loopInv_init (mkEnv its prioT true) book0)
    have hall : ∀ m, (OptimizeRun its prioT book0
        (muA (buildTripods its) (initState (mkEnv its prioT true) book0).assignments + 1)).used.getD
          m false = false := by
      intro m
      have hiff := hI.heldIff m
      rw [hterm] at hiff
      have h0 : held (mkEnv its prioT true).trip ([] : List Assignment) = [] := rfl
      rw [h0] at hiff
      cases hb : (OptimizeRun its prioT book0
          (muA (buildTripods its) (initState (mkEnv its prioT true) book0).assignments + 1)).used.getD
            m false with
      | false => rfl
      | true => exact absurd (hiff.mp hb) (List.not_mem_nil m)
    have hlen2 : (OptimizeRun its prioT book0
        (muA (buildTripods its) (initState (mkEnv its prioT true) book0).assignments + 1)).used.length =
        its.length := hI.usedLen
    rw [← hlen2]
    exact all_false_replicate _ hall
